import Mathlib

/-!
Verification of the WallOfX tweet-image generator against its specification.

The development shallowly embeds the pure logic of the source files
`wallofx/src/image/generator.py` and `wallofx/src/twitter/extractor.py`:
text is represented as `List Char`, vertical pixel coordinates as `ℚ`
(Python mixes `int` and `float` arithmetic on `y`), glyph measurement
(`draw.textbbox`) as an abstract function `measure : List Char → ℕ`, and
remote fetches as `Option`-valued oracles.  Regular-expression character
classes (`\w`, `\S`, `\d`) are modelled over ASCII.
-/

set_option autoImplicit false

namespace WallOfX

/-- Entity kinds produced by `_parse_text_entities`: `'text'`, `'url'`,
`'mention'`, `'hashtag'`. -/
inductive EntityKind where
  | text
  | url
  | mention
  | hashtag
deriving DecidableEq, Repr

/-- Python regex `\s` (whitespace), ASCII fragment. -/
def isPySpace (c : Char) : Bool :=
  c = ' ' || c = '\t' || c = '\n' || c = '\x0b' || c = '\x0c' || c = '\r'

/-- Python regex `\w` (word character), ASCII fragment: `[a-zA-Z0-9_]`. -/
def isWordChar (c : Char) : Bool :=
  c.isAlphanum || c = '_'

/-- Length of the longest run of non-space characters at the head of `l`
(the greedy `\S+` after the URL scheme, minus the emptiness check). -/
def nonSpaceRun (l : List Char) : Nat :=
  (l.takeWhile (fun c => !(isPySpace c))).length

/-- Length of the longest run of word characters at the head of `l`. -/
def wordRun (l : List Char) : Nat :=
  (l.takeWhile isWordChar).length

/-- Match `://` followed by `\S+` at the head of `l`; `pre` is the length of
the already consumed scheme prefix (`http` or `https`).  Returns the total
match length. -/
def schemeTail (pre : Nat) (l : List Char) : Option Nat :=
  if l.take 3 = [':', '/', '/'] then
    if nonSpaceRun (l.drop 3) = 0 then none
    else some (pre + 3 + nonSpaceRun (l.drop 3))
  else none

/-- Length of a match of Python regex `https?://\S+` anchored at the head of
`l`, if any.  The optional `s` is tried greedily first, as `re` does; if the
`s` branch fails the engine retries without it (which then also fails, since
the next character is `s`, not `:`). -/
def matchURLAt (l : List Char) : Option Nat :=
  if l.take 4 = ['h', 't', 't', 'p'] then
    if (l.drop 4).take 1 = ['s'] then
      match schemeTail 5 (l.drop 5) with
      | some k => some k
      | none => schemeTail 4 (l.drop 4)
    else schemeTail 4 (l.drop 4)
  else none

/-- Length of a match of Python regex `@\w+` anchored at the head of `l`. -/
def matchMentionAt (l : List Char) : Option Nat :=
  if l.take 1 = ['@'] then
    if wordRun (l.drop 1) = 0 then none else some (1 + wordRun (l.drop 1))
  else none

/-- Length of a match of Python regex `#\w+` anchored at the head of `l`. -/
def matchHashtagAt (l : List Char) : Option Nat :=
  if l.take 1 = ['#'] then
    if wordRun (l.drop 1) = 0 then none else some (1 + wordRun (l.drop 1))
  else none

/-- Embedding of `re.search`: scan left to right for the first position where the anchored
matcher `m` succeeds; return `(start, length)`. -/
def reSearch (m : List Char → Option Nat) : List Char → Option (Nat × Nat)
  | [] =>
      match m [] with
      | some k => some (0, k)
      | none => none
  | c :: cs =>
      match m (c :: cs) with
      | some k => some (0, k)
      | none =>
          match reSearch m cs with
          | some p => some (p.1 + 1, p.2)
          | none => none

/-- The pattern table of `_parse_text_entities`, in source order. -/
def entityPatterns : List ((List Char → Option Nat) × EntityKind) :=
  [(matchURLAt, EntityKind.url),
   (matchMentionAt, EntityKind.mention),
   (matchHashtagAt, EntityKind.hashtag)]

/-- One iteration of the `for pattern, entity_type in patterns` loop:
the state is `(earliest_match, earliest_pos)`, beaten only by a strictly
smaller start position. -/
def pickStep (l : List Char) (st : Option (Nat × Nat × EntityKind) × Nat)
    (pm : (List Char → Option Nat) × EntityKind) :
    Option (Nat × Nat × EntityKind) × Nat :=
  match reSearch pm.1 l with
  | some sk => if sk.1 < st.2 then (some (sk.1, sk.2, pm.2), sk.1) else st
  | none => st

/-- The earliest-match selection loop of `_parse_text_entities`:
`earliest_pos` starts at `len(remaining)`, giving URL > mention > hashtag
priority on ties. -/
def pickEarliest (l : List Char) : Option (Nat × Nat × EntityKind) :=
  (entityPatterns.foldl (pickStep l)
    ((none : Option (Nat × Nat × EntityKind)), l.length)).1

/-- The `while remaining:` loop of `_parse_text_entities`, with explicit fuel
(each iteration consumes at least one character, so `length + 1` fuel
suffices).  An untagged prefix is emitted as `'text'` only when non-empty,
then the match with its kind, then the loop continues past the match end. -/
def parseLoop : Nat → List Char → List (List Char × EntityKind)
  | 0, _ => []
  | fuel + 1, l =>
      if l = [] then []
      else
        match pickEarliest l with
        | some (s, k, t) =>
            (if 0 < s then [(l.take s, EntityKind.text)] else []) ++
              ((l.drop s).take k, t) :: parseLoop fuel (l.drop (s + k))
        | none => [(l, EntityKind.text)]

/-- Embedding of `_parse_text_entities`: split one line into `(content, kind)` spans. -/
def parse_text_entities (l : List Char) : List (List Char × EntityKind) :=
  parseLoop (l.length + 1) l

/-! ### Soundness of the matchers: a match is non-empty and stays in bounds -/

theorem length_takeWhile_le (p : Char → Bool) :
    ∀ l : List Char, (l.takeWhile p).length ≤ l.length := by
  intro l
  induction l with
  | nil => simp [List.takeWhile]
  | cons c cs ih =>
      by_cases h : p c <;> simp [List.takeWhile, h] <;> omega

theorem nonSpaceRun_le (l : List Char) : nonSpaceRun l ≤ l.length :=
  length_takeWhile_le _ l

theorem wordRun_le (l : List Char) : wordRun l ≤ l.length :=
  length_takeWhile_le _ l

/-- A matcher is sound when every match it reports is non-empty and fits
inside its input. -/
def SoundMatcher (m : List Char → Option Nat) : Prop :=
  ∀ l k, m l = some k → 1 ≤ k ∧ k ≤ l.length

theorem schemeTail_sound {pre : Nat} {l : List Char} {k : Nat}
    (h : schemeTail pre l = some k) : 1 ≤ k ∧ k ≤ pre + l.length := by
  unfold schemeTail at h
  split_ifs at h with h1 h2
  have h3 : (3 : Nat) ≤ l.length := by
    have h5 := congrArg List.length h1
    simp at h5
    omega
  have h4 := nonSpaceRun_le (l.drop 3)
  simp at h4
  cases h
  omega

theorem matchURLAt_sound : SoundMatcher matchURLAt := by
  intro l k h
  unfold matchURLAt at h
  have h4 : l.take 4 = ['h', 't', 't', 'p'] → (4 : Nat) ≤ l.length := by
    intro h1
    have := congrArg List.length h1
    simp at this
    omega
  split_ifs at h with h1 h2
  · rcases h5 : schemeTail 5 (l.drop 5) with _ | k'
    · rw [h5] at h
      rcases schemeTail_sound h with ⟨hk1, hk2⟩
      simp at hk2
      exact ⟨hk1, by have := h4 h1; omega⟩
    · rw [h5] at h
      cases h
      rcases schemeTail_sound h5 with ⟨hk1, hk2⟩
      have h6 : (5 : Nat) ≤ l.length := by
        have := congrArg List.length h2
        simp at this
        omega
      simp at hk2
      exact ⟨hk1, by omega⟩
  · rcases schemeTail_sound h with ⟨hk1, hk2⟩
    simp at hk2
    exact ⟨hk1, by have := h4 h1; omega⟩

theorem matchMentionAt_sound : SoundMatcher matchMentionAt := by
  intro l k h
  unfold matchMentionAt at h
  split_ifs at h with h1 h2
  have h3 : (1 : Nat) ≤ l.length := by
    have := congrArg List.length h1
    simp at this
    omega
  have h4 := wordRun_le (l.drop 1)
  rw [List.length_drop] at h4
  cases h
  omega

theorem matchHashtagAt_sound : SoundMatcher matchHashtagAt := by
  intro l k h
  unfold matchHashtagAt at h
  split_ifs at h with h1 h2
  have h3 : (1 : Nat) ≤ l.length := by
    have := congrArg List.length h1
    simp at this
    omega
  have h4 := wordRun_le (l.drop 1)
  rw [List.length_drop] at h4
  cases h
  omega

theorem reSearch_sound {m : List Char → Option Nat} (hm : SoundMatcher m) :
    ∀ {l : List Char} {s k : Nat},
      reSearch m l = some (s, k) → 1 ≤ k ∧ s + k ≤ l.length := by
  intro l
  induction l with
  | nil =>
      intro s k h
      unfold reSearch at h
      rcases h0 : m [] with _ | k'
      · rw [h0] at h; cases h
      · rw [h0] at h
        cases h
        rcases hm _ _ h0 with ⟨hk1, hk2⟩
        simp at hk2
        omega
  | cons c cs ih =>
      intro s k h
      unfold reSearch at h
      rcases h0 : m (c :: cs) with _ | k'
      · rw [h0] at h
        rcases h1 : reSearch m cs with _ | ⟨s', k''⟩
        · rw [h1] at h; cases h
        · rw [h1] at h
          cases h
          rcases ih h1 with ⟨hk1, hk2⟩
          simp
          omega
      · rw [h0] at h
        cases h
        rcases hm _ _ h0 with ⟨hk1, hk2⟩
        simp at hk2 ⊢
        omega

theorem pickFold_sound (l : List Char) :
    ∀ (ps : List ((List Char → Option Nat) × EntityKind))
      (st : Option (Nat × Nat × EntityKind) × Nat),
      (∀ p ∈ ps, SoundMatcher p.1) →
      (∀ s k t, st.1 = some (s, k, t) → 1 ≤ k ∧ s + k ≤ l.length) →
      ∀ s k t, (ps.foldl (pickStep l) st).1 = some (s, k, t) →
        1 ≤ k ∧ s + k ≤ l.length := by
  intro ps
  induction ps with
  | nil => intro st _ hst s k t h; exact hst s k t h
  | cons p ps ih =>
      intro st hps hst s k t h
      simp only [List.foldl_cons] at h
      refine ih _ (fun q hq => hps q (List.mem_cons_of_mem _ hq)) ?_ s k t h
      intro s' k' t' hstep
      rcases h0 : reSearch p.1 l with _ | ⟨s'', k''⟩ <;>
        simp only [pickStep, h0] at hstep
      · exact hst _ _ _ hstep
      · split_ifs at hstep with hlt
        · cases hstep
          exact reSearch_sound (hps p (List.mem_cons_self _ _)) h0
        · exact hst _ _ _ hstep

theorem pickEarliest_sound {l : List Char} {s k : Nat} {t : EntityKind}
    (h : pickEarliest l = some (s, k, t)) : 1 ≤ k ∧ s + k ≤ l.length := by
  refine pickFold_sound l entityPatterns _ ?_ (by simp) s k t h
  intro p hp
  simp only [entityPatterns, List.mem_cons, List.not_mem_nil, or_false] at hp
  rcases hp with rfl | rfl | rfl
  · exact matchURLAt_sound
  · exact matchMentionAt_sound
  · exact matchHashtagAt_sound

/-! ### Claims C1 and C10 -/

theorem parseLoop_flatten :
    ∀ (fuel : Nat) (l : List Char), l.length < fuel →
      ((parseLoop fuel l).map Prod.fst).flatten = l := by
  intro fuel
  induction fuel with
  | zero => intro l h; omega
  | succ n ih =>
      intro l h
      unfold parseLoop
      split_ifs with hnil
      · simp [hnil]
      · rcases hpick : pickEarliest l with _ | ⟨s, k, t⟩ <;> dsimp only
        · simp
        · rcases pickEarliest_sound hpick with ⟨hk1, hk2⟩
          have hrec : ((parseLoop n (l.drop (s + k))).map Prod.fst).flatten
              = l.drop (s + k) := by
            refine ih _ ?_
            simp
            omega
          have hpre : ((if 0 < s then [(l.take s, EntityKind.text)]
              else []).map Prod.fst).flatten = l.take s := by
            split_ifs with hs
            · simp
            · have hs0 : s = 0 := by omega
              simp [hs0]
          rw [List.map_append, List.flatten_append, hpre, List.map_cons,
            List.flatten_cons, hrec, List.drop_take_append_drop,
            List.take_append_drop]

/-- Claim C1: for every input line, the `(content, kind)` spans returned by
`_parse_text_entities` are emitted left to right, contiguously and
exhaustively: concatenating the contents in emitted order reconstructs the
original line exactly. -/
theorem parse_text_entities_exhaustive (l : List Char) :
    ((parse_text_entities l).map Prod.fst).flatten = l :=
  parseLoop_flatten _ l (Nat.lt_succ_self _)

theorem take_ne_nil {s : Nat} {l : List Char} (hs : 0 < s) (hl : l ≠ []) :
    l.take s ≠ [] := by
  have h1 : 0 < l.length := List.length_pos.mpr hl
  intro h0
  have h2 : (l.take s).length = 0 := by rw [h0]; rfl
  rw [List.length_take] at h2
  omega

theorem take_drop_ne_nil {s k : Nat} {l : List Char} (hk : 1 ≤ k)
    (hsk : s + k ≤ l.length) : (l.drop s).take k ≠ [] := by
  intro h0
  have h2 := congrArg List.length h0
  simp [List.length_take, List.length_drop] at h2
  omega

theorem parseLoop_content_ne_nil :
    ∀ (fuel : Nat) (l : List Char) (p : List Char × EntityKind),
      p ∈ parseLoop fuel l → p.1 ≠ [] := by
  intro fuel
  induction fuel with
  | zero => intro l p h; simp [parseLoop] at h
  | succ n ih =>
      intro l p h
      unfold parseLoop at h
      split_ifs at h with hnil
      · simp at h
      · rcases hpick : pickEarliest l with _ | ⟨s, k, t⟩
        · rw [hpick] at h
          simp at h
          subst h
          exact hnil
        · rw [hpick] at h
          rcases pickEarliest_sound hpick with ⟨hk1, hk2⟩
          rcases List.mem_append.mp h with h1 | h1
          · split_ifs at h1 with hs
            · simp at h1
              subst h1
              exact take_ne_nil hs hnil
            · simp at h1
          · rcases List.mem_cons.mp h1 with h2 | h2
            · subst h2
              exact take_drop_ne_nil hk1 hk2
            · exact ih _ _ h2

/-- Claim C10: every span emitted by `_parse_text_entities` has non-empty
content: no empty plain prefix is emitted before a match at position 0, and
no empty trailing remainder is appended. -/
theorem parse_text_entities_content_ne_nil (l : List Char)
    (p : List Char × EntityKind) (hp : p ∈ parse_text_entities l) :
    p.1 ≠ [] :=
  parseLoop_content_ne_nil _ l p hp

/-- Witness for C10 at a concrete line. -/
theorem parse_text_entities_content_ne_nil_witness :
    (("hi ".toList, EntityKind.text) ∈ parse_text_entities "hi @a".toList) ∧
      ("hi ".toList, EntityKind.text).1 ≠ [] :=
  ⟨by decide, parse_text_entities_content_ne_nil "hi @a".toList
    ("hi ".toList, EntityKind.text) (by decide)⟩

/-! ### `_format_number` (claim C5)

Python renders `f'{num / 1000:.1f}K'`: the quotient is taken to the nearest
tenth.  CPython rounds the binary double half-to-even; we model the rounding
on the exact rational value.  At non-tie points the two agree (the double
error is far below the distance to a tie); either behaviour satisfies the
half-a-tenth bound proved below. -/

/-- Round `num / den` to the nearest integer, ties to even. -/
def roundHalfEven (num den : Nat) : Nat :=
  if 2 * (num % den) < den then num / den
  else if den < 2 * (num % den) then num / den + 1
  else if num / den % 2 = 0 then num / den else num / den + 1

/-- Embedding of `f'{num / den:.1f}'`: one digit after the decimal point. -/
def fmt1f (num den : Nat) : String :=
  toString (roundHalfEven (num * 10) den / 10) ++ "." ++
    toString (roundHalfEven (num * 10) den % 10)

/-- Embedding of `ImageGenerator._format_number`. -/
def format_number (num : Nat) : String :=
  if num ≥ 1000000 then fmt1f num 1000000 ++ "M"
  else if num ≥ 1000 then fmt1f num 1000 ++ "K"
  else toString num

theorem roundHalfEven_close (num den : Nat) (hden : 0 < den) :
    2 * (den * roundHalfEven num den) ≤ 2 * num + den ∧
      2 * num ≤ 2 * (den * roundHalfEven num den) + den := by
  have hqr := Nat.div_add_mod num den
  have hr : num % den < den := Nat.mod_lt _ hden
  have h5 : den * (num / den + 1) = den * (num / den) + den := by ring
  unfold roundHalfEven
  split_ifs <;> omega

/-- Claim C5: `_format_number` returns the literal decimal string below
1000; between 1000 and 1000000 it returns the value `n / 1000` rendered with
exactly one decimal digit (within half a tenth of the true quotient)
followed by `K`; at or above 1000000 likewise with divisor 1000000 and
suffix `M`; in particular `999 ↦ "999"`, `1000 ↦ "1.0K"`,
`1500000 ↦ "1.5M"`, `0 ↦ "0"`. -/
theorem format_number_spec (n : Nat) :
    (n < 1000 → format_number n = toString n) ∧
    (1000 ≤ n → n < 1000000 →
      ∃ a b : Nat, b < 10 ∧
        format_number n = toString a ++ "." ++ toString b ++ "K" ∧
        (10 * a + b) * 100 ≤ n + 50 ∧ n ≤ (10 * a + b) * 100 + 50) ∧
    (1000000 ≤ n →
      ∃ a b : Nat, b < 10 ∧
        format_number n = toString a ++ "." ++ toString b ++ "M" ∧
        (10 * a + b) * 100000 ≤ n + 50000 ∧
          n ≤ (10 * a + b) * 100000 + 50000) ∧
    format_number 999 = "999" ∧ format_number 1000 = "1.0K" ∧
      format_number 1500000 = "1.5M" ∧ format_number 0 = "0" := by
  refine ⟨?_, ?_, ?_, by decide, by decide, by decide, by decide⟩
  · intro h1
    unfold format_number
    rw [if_neg (by omega), if_neg (by omega)]
  · intro h1 h2
    refine ⟨roundHalfEven (n * 10) 1000 / 10, roundHalfEven (n * 10) 1000 % 10,
      Nat.mod_lt _ (by omega), ?_, ?_⟩
    · unfold format_number
      rw [if_neg (by omega), if_pos (by omega)]
      rfl
    · have h3 := roundHalfEven_close (n * 10) 1000 (by omega)
      have h4 := Nat.div_add_mod (roundHalfEven (n * 10) 1000) 10
      omega
  · intro h1
    refine ⟨roundHalfEven (n * 10) 1000000 / 10,
      roundHalfEven (n * 10) 1000000 % 10, Nat.mod_lt _ (by omega), ?_, ?_⟩
    · unfold format_number
      rw [if_pos (by omega)]
      rfl
    · have h3 := roundHalfEven_close (n * 10) 1000000 (by omega)
      have h4 := Nat.div_add_mod (roundHalfEven (n * 10) 1000000) 10
      omega

/-- Witness for C5: the theorem applied at `n = 2500`. -/
theorem format_number_spec_witness :
    ∃ a b : Nat, b < 10 ∧
      format_number 2500 = toString a ++ "." ++ toString b ++ "K" ∧
      (10 * a + b) * 100 ≤ 2500 + 50 ∧ 2500 ≤ (10 * a + b) * 100 + 50 :=
  (format_number_spec 2500).2.1 (by decide) (by decide)

/-! ### Theme resolution (claim C7) -/

/-- RGB colour triple. -/
abbrev Color := ℕ × ℕ × ℕ

/-- One palette of `ImageGenerator.THEMES`. -/
structure Palette where
  background : Color
  text : Color
  secondary_text : Color
  link : Color
  accent : Color
  divider : Color
  icon : Color
deriving DecidableEq, Repr

/-- Embedding of `THEMES['dark']`. -/
def darkTheme : Palette :=
  ⟨(0, 0, 0), (231, 233, 234), (113, 118, 123), (29, 155, 240),
    (29, 155, 240), (56, 68, 77), (113, 118, 123)⟩

/-- Embedding of `THEMES['dim']`. -/
def dimTheme : Palette :=
  ⟨(21, 24, 28), (247, 249, 249), (139, 152, 165), (29, 155, 240),
    (29, 155, 240), (56, 68, 77), (139, 152, 165)⟩

/-- Embedding of `THEMES['light']`. -/
def lightTheme : Palette :=
  ⟨(255, 255, 255), (15, 20, 25), (83, 100, 113), (29, 155, 240),
    (29, 155, 240), (180, 185, 190), (83, 100, 113)⟩

/-- The `THEMES` class dictionary. -/
def THEMES : List (String × Palette) :=
  [("dark", darkTheme), ("dim", dimTheme), ("light", lightTheme)]

/-- Embedding of `ImageGenerator.__init__`: `self.THEMES.get(theme, self.THEMES['dark'])`. -/
def resolveTheme (theme : String) : Palette :=
  match THEMES.lookup theme with
  | some p => p
  | none => darkTheme

/-- Claim C7: theme resolution never fails: the three known identifiers map
to their palettes, and every other identifier resolves to the default dark
palette instead of raising. -/
theorem resolveTheme_total (s : String) :
    resolveTheme "dark" = darkTheme ∧ resolveTheme "dim" = dimTheme ∧
      resolveTheme "light" = lightTheme ∧
      (s ≠ "dark" → s ≠ "dim" → s ≠ "light" → resolveTheme s = darkTheme) := by
  refine ⟨by decide, by decide, by decide, ?_⟩
  intro h1 h2 h3
  have e1 : (s == "dark") = false := beq_eq_false_iff_ne.mpr h1
  have e2 : (s == "dim") = false := beq_eq_false_iff_ne.mpr h2
  have e3 : (s == "light") = false := beq_eq_false_iff_ne.mpr h3
  simp [resolveTheme, THEMES, List.lookup, e1, e2, e3]

/-- Witness for C7 at an unknown theme identifier. -/
theorem resolveTheme_total_witness : resolveTheme "solarized" = darkTheme :=
  (resolveTheme_total "solarized").2.2.2 (by decide) (by decide) (by decide)

/-! ### `TweetExtractor` (claim C8) -/

/-- Match `/status/` followed by `\d+` anchored at the head of `l`; returns
the digit group. -/
def matchStatusAt (l : List Char) : Option (List Char) :=
  if l.take 8 = "/status/".toList then
    if (l.drop 8).takeWhile Char.isDigit = [] then none
    else some ((l.drop 8).takeWhile Char.isDigit)
  else none

/-- Embedding of `re.search(r'/status/(\d+)', url)`: leftmost occurrence, group 1. -/
def searchStatus : List Char → Option (List Char)
  | [] => matchStatusAt []
  | c :: cs =>
      match matchStatusAt (c :: cs) with
      | some d => some d
      | none => searchStatus cs

/-- Embedding of `TweetExtractor._extract_tweet_id`. -/
def extract_tweet_id (url : List Char) : Option (List Char) :=
  searchStatus url

/-- Embedding of `TweetExtractor.API_BASE`. -/
def API_BASE : List Char := "https://api.fxtwitter.com".toList

/-- Embedding of `TweetExtractor.extract`, instrumented with the list of HTTP requests it
performs.  The fetch oracle `doFetch` models the `aiohttp` GET (returning
`none` on non-200 status or exception) and `parseResp` models
`_parse_fxtweet_response`; the id extraction precedes the request, exactly
as in the source. -/
def extract {α β : Type} (doFetch : List Char → Option α)
    (parseResp : α → Option β) (url : List Char) :
    List (List Char) × Option β :=
  match extract_tweet_id url with
  | none => ([], none)
  | some tid =>
      match doFetch (API_BASE ++ "/status/".toList ++ tid) with
      | none => ([API_BASE ++ "/status/".toList ++ tid], none)
      | some body => ([API_BASE ++ "/status/".toList ++ tid], parseResp body)

/-- Claim C8: for every URL from which no numeric post identifier can be
extracted (no `/status/<digits>` segment), `extract` returns the explicit
not-found result having performed no network request at all. -/
theorem extract_malformed_no_network {α β : Type}
    (doFetch : List Char → Option α) (parseResp : α → Option β)
    (url : List Char) (h : extract_tweet_id url = none) :
    extract doFetch parseResp url = ([], none) := by
  unfold extract
  rw [h]

/-- Witness for C8 at a URL with digits but no `/status/` segment. -/
theorem extract_malformed_no_network_witness :
    extract_tweet_id "https://x.com/user/photo/123".toList = none ∧
      extract (fun _ => some 0) (fun _ : Nat => (none : Option Nat))
        "https://x.com/user/photo/123".toList = ([], none) :=
  ⟨by decide, extract_malformed_no_network _ _ _ (by decide)⟩

/-! ### Media grid composition (claim C6)

The `========== IMAGES ==========` section of `generate`.  A fetch oracle
`fetch : String → Option (ℕ × ℕ)` models `_load_image`, returning the
decoded image's (width, height) or `none` on any failure (non-200 status,
timeout, exception).  `int(img_w * (h / w))` truncates the positive float
quotient, modelled by natural division. -/

/-- Layout constants of `generate`: `padding_side` and
`content_width = 2000 - 2 * 110`. -/
def padding_side : ℤ := 110

def content_width : ℕ := 1780

/-- A composited media cell: the position and final size of the
`img.paste(tweet_image, …)` call for that cell. -/
structure Placement where
  x : ℤ
  y : ℚ
  w : ℕ
  h : ℕ
deriving DecidableEq, Repr

/-- Embedding of `min(max_h, int(img_w * (ih / iw)))`: aspect-scaled height, capped. -/
def scaledHeight (maxH w iw ih : ℕ) : ℕ :=
  min maxH (w * ih / iw)

/-- Cell of the two-image row: `(padding_side + i * (img_w + 16), current_y)`
with `img_w = (1780 - 16) // 2 = 882` and `max_h = 850`. -/
def gridCell2 (y : ℚ) (iu : ℕ × String) (d : ℕ × ℕ) : Placement :=
  ⟨padding_side + iu.1 * 898, y, 882, scaledHeight 850 882 d.1 d.2⟩

/-- Cell of the 2-column grid for 3–4 images: `row = i // 2`, `col = i % 2`,
`max_h = 700`, row pitch `max_h + 16`. -/
def gridCell4 (y : ℚ) (iu : ℕ × String) (d : ℕ × ℕ) : Placement :=
  ⟨padding_side + (iu.1 % 2) * 898, y + (iu.1 / 2) * 716, 882,
    scaledHeight 700 882 d.1 d.2⟩

/-- The media section of `generate`: returns the composited cells and the
advanced cursor.  For one image the advance happens only inside
`if tweet_image:`; for two and for three-to-four images the advance is
unconditional after the loop. -/
def mediaSection (fetch : String → Option (ℕ × ℕ)) (images : List String)
    (y0 : ℚ) : List Placement × ℚ :=
  match images with
  | [] => ([], y0)
  | img0 :: _ =>
      let y := y0 + 30
      if min images.length 4 = 1 then
        match fetch img0 with
        | some d =>
            ([⟨padding_side, y, content_width,
                scaledHeight 1500 content_width d.1 d.2⟩],
              y + scaledHeight 1500 content_width d.1 d.2 + 35)
        | none => ([], y)
      else if min images.length 4 = 2 then
        ((images.take 2).enum.filterMap
            (fun iu => (fetch iu.2).map (gridCell2 y iu)),
          y + 850 + 35)
      else
        ((images.take 4).enum.filterMap
            (fun iu => (fetch iu.2).map (gridCell4 y iu)),
          y + 700 * 2 + 50)

/-- Counterexample to claim C6 as stated: for a single-image list whose only
fetch fails, the cursor advance (`+30` only) differs from the all-success
advance (`+30 + image height + 35`); the single-image advance happens only
inside `if tweet_image:`. -/
theorem mediaSection_single_failure_advance_differs :
    (mediaSection (fun _ => none) ["u"] 0).2 ≠
      (mediaSection (fun _ => some (1000, 1000)) ["u"] 0).2 := by
  show (0 + 30 : ℚ) ≠ 0 + 30 + ((1500 : ℕ) : ℚ) + 35
  norm_num

theorem filterMap_fetch_mono {α : Type} (l : List (ℕ × String))
    (fetch fetch' : String → Option (ℕ × ℕ))
    (cell : ℕ × String → (ℕ × ℕ) → α)
    (hagree : ∀ u d, fetch u = some d → fetch' u = some d) :
    ∀ p ∈ l.filterMap (fun iu => (fetch iu.2).map (cell iu)),
      p ∈ l.filterMap (fun iu => (fetch' iu.2).map (cell iu)) := by
  intro p hp
  rcases List.mem_filterMap.mp hp with ⟨x, hx, hfx⟩
  rcases hd : fetch x.2 with _ | d
  · rw [hd] at hfx
    cases hfx
  · rw [hd] at hfx
    simp at hfx
    refine List.mem_filterMap.mpr ⟨x, hx, ?_⟩
    rw [hagree _ _ hd]
    simp [hfx]

/-- Claim C6 as amended: for two or more image URLs, a failed fetch never
aborts the grid: the cursor advance is a fixed function of the image count,
independent of which fetches succeed, and every successfully fetched cell is
composited at the same grid position it has in a render where every fetch
succeeds (failed cells are simply absent from the paste list). -/
theorem mediaSection_failure_isolated (fetch fetch' : String → Option (ℕ × ℕ))
    (images : List String) (y0 : ℚ) (h2 : 2 ≤ images.length)
    (hagree : ∀ u d, fetch u = some d → fetch' u = some d) :
    (mediaSection fetch images y0).2
        = y0 + 30 + (if images.length = 2 then (885 : ℚ) else 1450) ∧
      ∀ p ∈ (mediaSection fetch images y0).1,
        p ∈ (mediaSection fetch' images y0).1 := by
  match images with
  | a :: b :: rest =>
      rcases rest with _ | ⟨c, rest2⟩
      · constructor
        · show (y0 + 30 + 850 + 35 : ℚ) = y0 + 30 + 885
          ring
        · show ∀ p ∈ ([a, b].take 2).enum.filterMap
              (fun iu => (fetch iu.2).map (gridCell2 (y0 + 30) iu)),
            p ∈ ([a, b].take 2).enum.filterMap
              (fun iu => (fetch' iu.2).map (gridCell2 (y0 + 30) iu))
          exact filterMap_fetch_mono _ fetch fetch' _ hagree
      · have hlen : (a :: b :: c :: rest2).length = rest2.length + 3 := by
          simp
        have hn1 : ¬ min (a :: b :: c :: rest2).length 4 = 1 := by
          rw [hlen]; omega
        have hn2 : ¬ min (a :: b :: c :: rest2).length 4 = 2 := by
          rw [hlen]; omega
        have hne2 : ¬ (a :: b :: c :: rest2).length = 2 := by
          rw [hlen]; omega
        have hu : mediaSection fetch (a :: b :: c :: rest2) y0 =
            (((a :: b :: c :: rest2).take 4).enum.filterMap
                (fun iu => (fetch iu.2).map (gridCell4 (y0 + 30) iu)),
              y0 + 30 + 700 * 2 + 50) := by
          unfold mediaSection
          simp only [hn1, hn2, if_false]
        have hu' : mediaSection fetch' (a :: b :: c :: rest2) y0 =
            (((a :: b :: c :: rest2).take 4).enum.filterMap
                (fun iu => (fetch' iu.2).map (gridCell4 (y0 + 30) iu)),
              y0 + 30 + 700 * 2 + 50) := by
          unfold mediaSection
          simp only [hn1, hn2, if_false]
        rw [hu, hu']
        constructor
        · rw [if_neg hne2]
          ring
        · exact filterMap_fetch_mono _ fetch fetch' _ hagree

/-- Witness for C6: two images, the second fetch failing, against an
all-success oracle. -/
theorem mediaSection_failure_isolated_witness :
    (mediaSection (fun u => if u = "a" then some (400, 300) else none)
          ["a", "b"] 0).2
        = 0 + 30 + (if (["a", "b"] : List String).length = 2
            then (885 : ℚ) else 1450) ∧
      ∀ p ∈ (mediaSection (fun u => if u = "a" then some (400, 300) else none)
          ["a", "b"] 0).1,
        p ∈ (mediaSection (fun _ => some (400, 300)) ["a", "b"] 0).1 :=
  mediaSection_failure_isolated _ _ ["a", "b"] 0 (by decide)
    (by
      intro u d h
      by_cases hu : u = "a"
      · rw [if_pos hu] at h
        exact h ▸ rfl
      · rw [if_neg hu] at h
        cases h)

/-! ### Word-wrap / text flow (`_render_text`, claims C2, C3, C4)

`draw.textbbox` width measurement is abstracted as
`measure : List Char → ℕ` (the non-negative `bbox[2] - bbox[0]`).  The
cursor `y` is rational because Python mixes `int` and `float`
(`y += line_height * 0.5`). -/

/-- The hardcoded `line_height = 105` of `_render_text`. -/
def line_height : ℚ := 105

/-- One glyph run drawn by `draw.text((x, y), text, fill=color, font=font)`,
together with the measured width of its text. -/
structure Run where
  content : List Char
  x : ℤ
  y : ℚ
  color : Color
  width : ℕ
deriving DecidableEq, Repr

/-- The local state of `_render_text`: cursor, accumulated width of the
current visual line (`line_width`), the buffered parts of the current line
(`current_line_parts`), and every run drawn so far. -/
structure RState where
  y : ℚ
  cx : ℤ
  lw : ℕ
  pending : List (List Char × ℤ × Color)
  drawn : List Run
deriving Repr

/-- Colour selection: the theme's link colour for mention/hashtag/url parts,
the text colour otherwise. -/
def partColor (theme : Palette) (k : EntityKind) : Color :=
  if k = EntityKind.mention ∨ k = EntityKind.hashtag ∨ k = EntityKind.url
  then theme.link else theme.text

/-- Python `s.split(sep)` for a one-character separator: preserves empty
fields, and splitting the empty string yields `['']`. -/
def splitCh (sep : Char) : List Char → List (List Char)
  | [] => [[]]
  | c :: cs =>
      if c = sep then [] :: splitCh sep cs
      else
        match splitCh sep cs with
        | [] => [[c]]
        | w :: ws => (c :: w) :: ws

/-- Flush `current_line_parts`: draw each buffered part at the current `y`. -/
def flushRuns (measure : List Char → ℕ)
    (pending : List (List Char × ℤ × Color)) (y : ℚ) (drawn : List Run) :
    List Run :=
  drawn ++ pending.map (fun p => ⟨p.1, p.2.1, y, p.2.2, measure p.1⟩)

/-- Embedding of `Line too long - render current and start new line`: draw the buffered
parts at the current `y`, advance `y` by `line_height`, reset the horizontal
state.  (Also models the end-of-line flush; the reset of `current_x` and
`line_width` there is invisible, since the next line re-initialises them.) -/
def flushAdvance (measure : List Char → ℕ) (x : ℤ) (st : RState) : RState :=
  { y := st.y + line_height, cx := x, lw := 0, pending := [],
    drawn := flushRuns measure st.pending st.y st.drawn }

/-- One iteration of the `for word in words:` loop: a word that would
overflow forces a line break first, then is drawn unconditionally at the
current position. -/
def drawWord (measure : List Char → ℕ) (x : ℤ) (maxW : ℕ) (color : Color)
    (w : List Char) (st : RState) : RState :=
  let st1 := if st.lw + measure w > maxW
    then { st with y := st.y + line_height, cx := x, lw := 0 } else st
  { st1 with
    drawn := st1.drawn ++ [⟨w, st1.cx, st1.y, color, measure w⟩],
    cx := st1.cx + measure w,
    lw := st1.lw + measure w }

/-- The `for word in words:` loop that splits an over-wide part on spaces. -/
def renderWords (measure : List Char → ℕ) (x : ℤ) (maxW : ℕ) (color : Color) :
    List (List Char) → RState → RState
  | [], st => st
  | w :: ws, st =>
      renderWords measure x maxW color ws (drawWord measure x maxW color w st)

/-- One iteration of the `for part_text, part_type in parts:` loop: a part
that still fits is buffered onto the current line; otherwise the line is
flushed, and the part is either word-split (when alone too wide) or buffered
onto the fresh line.  The source sets `current_x = part_width` (not
`x + part_width`) in the latter case. -/
def partStep (measure : List Char → ℕ) (theme : Palette) (x : ℤ) (maxW : ℕ)
    (pt : List Char) (pk : EntityKind) (st : RState) : RState :=
  if st.lw + measure pt ≤ maxW then
    { st with
      pending := st.pending ++ [(pt, st.cx, partColor theme pk)],
      lw := st.lw + measure pt,
      cx := st.cx + measure pt }
  else
    if measure pt > maxW then
      renderWords measure x maxW (partColor theme pk) (splitCh ' ' pt)
        (flushAdvance measure x st)
    else
      { flushAdvance measure x st with
        pending := [(pt, x, partColor theme pk)],
        lw := measure pt,
        cx := (measure pt : ℤ) }

/-- The `for part_text, part_type in parts:` loop of `_render_text`. -/
def renderParts (measure : List Char → ℕ) (theme : Palette) (x : ℤ)
    (maxW : ℕ) : List (List Char × EntityKind) → RState → RState
  | [], st => st
  | (pt, pk) :: ps, st =>
      renderParts measure theme x maxW ps
        (partStep measure theme x maxW pt pk st)

/-- Python `not line.strip()`: the line is empty or all whitespace. -/
def isBlankLine (l : List Char) : Bool := l.all isPySpace

/-- One non-blank line: reset the horizontal state, parse the entities, run
the part loop, then `# Render remaining parts` and advance `y` by
`line_height`. -/
def renderLine (measure : List Char → ℕ) (theme : Palette) (x : ℤ)
    (maxW : ℕ) (line : List Char) (st : RState) : RState :=
  flushAdvance measure x
    (renderParts measure theme x maxW (parse_text_entities line)
      { st with cx := x, lw := 0, pending := [] })

/-- Normalize line breaks: `replace('\r\n', '\n').replace('\r', '\n')`. -/
def normalizeNewlines : List Char → List Char
  | [] => []
  | '\r' :: '\n' :: rest => '\n' :: normalizeNewlines rest
  | '\r' :: rest => '\n' :: normalizeNewlines rest
  | c :: rest => c :: normalizeNewlines rest

/-- The body of the `for line in lines:` loop: a blank line advances `y` by
`line_height * 0.5` and continues; any other line is rendered. -/
def renderStep (measure : List Char → ℕ) (theme : Palette) (x : ℤ)
    (maxW : ℕ) (st : RState) (line : List Char) : RState :=
  if isBlankLine line then { st with y := st.y + line_height * (1 / 2) }
  else renderLine measure theme x maxW line st

/-- Embedding of `_render_text`: returns the final cursor `y` and the drawn runs. -/
def render_text (measure : List Char → ℕ) (theme : Palette) (text : List Char)
    (x : ℤ) (y : ℚ) (maxW : ℕ) : RState :=
  (splitCh '\n' (normalizeNewlines text)).foldl
    (renderStep measure theme x maxW) ⟨y, x, 0, [], []⟩

/-! ### Claims C3 and C4: line height and blank-line behaviour -/

theorem blankFold (measure : List Char → ℕ) (theme : Palette) (x : ℤ)
    (maxW : ℕ) :
    ∀ (lines : List (List Char)) (st : RState),
      (∀ l ∈ lines, isBlankLine l) →
      (lines.foldl (renderStep measure theme x maxW) st).y
          = st.y + lines.length * (line_height * (1 / 2)) ∧
        (lines.foldl (renderStep measure theme x maxW) st).drawn
          = st.drawn := by
  intro lines
  induction lines with
  | nil => intro st h; simp
  | cons l ls ih =>
      intro st h
      have hl : isBlankLine l := h l (by simp)
      simp only [List.foldl_cons]
      have hstep : renderStep measure theme x maxW st l
          = { st with y := st.y + line_height * (1 / 2) } := by
        unfold renderStep
        rw [if_pos hl]
      rw [hstep]
      rcases ih { st with y := st.y + line_height * (1 / 2) }
          (fun l' hl' => h l' (List.mem_cons_of_mem _ hl')) with ⟨h1, h2⟩
      refine ⟨?_, h2⟩
      rw [h1]
      simp only [List.length_cons]
      push_cast
      ring

/-- Counterexample to claim C4 as stated: for the empty body text the
renderer does not return the start `y`.  Python's `''.split('\n')` is
`['']`, so the empty text is one blank line and `y` advances by half the
line height. -/
theorem render_text_empty_nonzero_advance :
    (render_text (fun l => l.length) darkTheme [] 110 0 1780).y
        = line_height * (1 / 2) ∧ line_height * (1 / 2) ≠ (0 : ℚ) := by
  constructor
  · show (0 : ℚ) + line_height * (1 / 2) = line_height * (1 / 2)
    norm_num
  · norm_num [line_height]

/-- Claim C4 as amended: a body text all of whose lines are blank (the empty
body counts as one blank line) advances `y` by exactly `line_height * 0.5`
per line and draws nothing — no entity rendering is attempted. -/
theorem render_text_blank_lines (measure : List Char → ℕ) (theme : Palette)
    (text : List Char) (x : ℤ) (y : ℚ) (maxW : ℕ)
    (hblank : ∀ l ∈ splitCh '\n' (normalizeNewlines text), isBlankLine l) :
    (render_text measure theme text x y maxW).y
        = y + (splitCh '\n' (normalizeNewlines text)).length
            * (line_height * (1 / 2)) ∧
      (render_text measure theme text x y maxW).drawn = [] := by
  unfold render_text
  exact blankFold measure theme x maxW _ _ hblank

/-- Witness for C4 (amended) on a two-line whitespace body. -/
theorem render_text_blank_lines_witness :
    (render_text (fun l => l.length) darkTheme "  \n\x09".toList 110 0
          1780).y
        = 0 + (splitCh '\n' (normalizeNewlines "  \n\x09".toList)).length
            * (line_height * (1 / 2)) ∧
      (render_text (fun l => l.length) darkTheme "  \n\x09".toList 110 0
          1780).drawn = [] :=
  render_text_blank_lines _ _ _ _ _ _ (by decide)

theorem renderParts_fits (measure : List Char → ℕ) (theme : Palette)
    (x : ℤ) (maxW : ℕ) :
    ∀ (ps : List (List Char × EntityKind)) (st : RState),
      st.lw + (ps.map (fun p => measure p.1)).sum ≤ maxW →
      (renderParts measure theme x maxW ps st).y = st.y ∧
        (renderParts measure theme x maxW ps st).drawn = st.drawn := by
  intro ps
  induction ps with
  | nil => intro st h; exact ⟨rfl, rfl⟩
  | cons p ps ih =>
      intro st h
      rcases p with ⟨pt, pk⟩
      simp only [List.map_cons, List.sum_cons] at h
      have hfits : st.lw + measure pt ≤ maxW := by omega
      unfold renderParts partStep
      rw [if_pos hfits]
      exact ih _ (by simp; omega)

/-- Counterexample to claim C3 as stated: the per-line vertical advance of
`_render_text` is identical under two different glyph-measure functions
(that is, under different active fonts) and equals the hardcoded constant
105, which is not an ascent-plus-descent metric scaled by 1.4 (for a metric
of 100 that would be 140): the advance does not scale with the font. -/
theorem render_text_line_height_not_font_derived :
    (render_text (fun _ => 0) darkTheme "hi".toList 110 0 1780).y = 105 ∧
      (render_text (fun l => 40 * l.length) darkTheme "hi".toList 110 0
          1780).y = 105 ∧
      (105 : ℚ) ≠ (14 / 10) * 100 := by
  refine ⟨?_, ?_, by norm_num⟩
  · show ((0 : ℚ) + line_height) = 105
    norm_num [line_height]
  · show ((0 : ℚ) + line_height) = 105
    norm_num [line_height]

/-- Claim C3 as amended: the vertical line height used by `_render_text` is
the hardcoded constant `line_height = 105`, independent of the active font:
for every glyph-measure function, a single-line body whose parts all fit
within the width advances the cursor by exactly 105. -/
theorem render_text_line_height_const (measure : List Char → ℕ)
    (theme : Palette) (x : ℤ) (y : ℚ) (maxW : ℕ) (line : List Char)
    (hone : splitCh '\n' (normalizeNewlines line) = [line])
    (hblank : isBlankLine line = false)
    (hfit : ((parse_text_entities line).map (fun p => measure p.1)).sum
      ≤ maxW) :
    (render_text measure theme line x y maxW).y = y + line_height ∧
      line_height = 105 := by
  refine ⟨?_, rfl⟩
  unfold render_text
  rw [hone]
  simp only [List.foldl_cons, List.foldl_nil]
  unfold renderStep
  rw [hblank]
  simp only [Bool.false_eq_true, if_false]
  unfold renderLine flushAdvance
  have h1 := renderParts_fits measure theme x maxW (parse_text_entities line)
    { y := y, cx := x, lw := 0, pending := [], drawn := [] }
    (by simpa using hfit)
  rw [h1.1]

/-- Witness for C3 (amended) on a concrete line and measure function. -/
theorem render_text_line_height_const_witness :
    (render_text (fun l => l.length) darkTheme "hi".toList 110 0 1780).y
        = 0 + line_height ∧ line_height = 105 :=
  render_text_line_height_const (fun l => l.length) darkTheme 110 0 1780
    "hi".toList (by decide) (by decide) (by decide)

/-! ### Claim C2: the wrap-width invariant -/

/-- The runs drawn on the visual line at height `yv`. -/
def runsAt (yv : ℚ) (runs : List Run) : List Run :=
  runs.filter (fun r => r.y = yv)

/-- Total measured width of a list of runs. -/
def sumW (runs : List Run) : ℕ := (runs.map Run.width).sum

/-- Total measured width of the buffered parts. -/
def pendingW (measure : List Char → ℕ)
    (pending : List (List Char × ℤ × Color)) : ℕ :=
  (pending.map (fun p => measure p.1)).sum

/-- A visual line is acceptable when its total measured width fits the
budget, or it consists of a single over-wide run. -/
def LineOK (maxW : ℕ) (rs : List Run) : Prop :=
  sumW rs ≤ maxW ∨ ∃ r, rs = [r] ∧ maxW < r.width

/-- Invariant of the `_render_text` state: every run is at or above the
cursor; every completed line is acceptable; and on the current line either
the accounted width dominates the drawn-plus-buffered width within budget,
or a lone over-wide word has been drawn (with nothing buffered), or the line
is still empty with nothing buffered. -/
structure WrapInv (measure : List Char → ℕ) (maxW : ℕ) (st : RState) :
    Prop where
  bounded : ∀ r ∈ st.drawn, r.y ≤ st.y
  finalized : ∀ yv, yv ≠ st.y → LineOK maxW (runsAt yv st.drawn)
  current :
    (sumW (runsAt st.y st.drawn) + pendingW measure st.pending ≤ st.lw
        ∧ st.lw ≤ maxW)
      ∨ (st.pending = []
          ∧ (∃ r, runsAt st.y st.drawn = [r] ∧ maxW < r.width)
          ∧ maxW < st.lw)
      ∨ (st.pending = [] ∧ runsAt st.y st.drawn = [])

theorem runsAt_append (yv : ℚ) (a b : List Run) :
    runsAt yv (a ++ b) = runsAt yv a ++ runsAt yv b :=
  List.filter_append a b

theorem sumW_append (a b : List Run) : sumW (a ++ b) = sumW a + sumW b := by
  simp [sumW]

theorem runsAt_nil_of_bounded {y y' : ℚ} {drawn : List Run}
    (h : ∀ r ∈ drawn, r.y ≤ y) (hy : y < y') : runsAt y' drawn = [] := by
  rw [runsAt, List.filter_eq_nil_iff]
  intro r hr
  have h1 := h r hr
  simp only [decide_eq_true_eq]
  intro h2
  rw [h2] at h1
  exact absurd hy (not_lt.mpr h1)

theorem runsAt_flush_self (measure : List Char → ℕ)
    (pending : List (List Char × ℤ × Color)) (y : ℚ) (drawn : List Run) :
    runsAt y (flushRuns measure pending y drawn)
      = runsAt y drawn
        ++ pending.map (fun p => ⟨p.1, p.2.1, y, p.2.2, measure p.1⟩) := by
  unfold flushRuns
  rw [runsAt_append]
  congr 1
  rw [runsAt, List.filter_eq_self]
  intro r hr
  rcases List.mem_map.mp hr with ⟨p, _, rfl⟩
  simp

theorem runsAt_flush_other {yv y : ℚ} (hne : yv ≠ y)
    (measure : List Char → ℕ) (pending : List (List Char × ℤ × Color))
    (drawn : List Run) :
    runsAt yv (flushRuns measure pending y drawn) = runsAt yv drawn := by
  unfold flushRuns
  rw [runsAt_append]
  have h1 : runsAt yv (pending.map
      (fun p => (⟨p.1, p.2.1, y, p.2.2, measure p.1⟩ : Run))) = [] := by
    rw [runsAt, List.filter_eq_nil_iff]
    intro r hr
    rcases List.mem_map.mp hr with ⟨p, _, rfl⟩
    simp [Ne.symm hne]
  rw [h1, List.append_nil]

theorem sumW_flushed (measure : List Char → ℕ)
    (pending : List (List Char × ℤ × Color)) (y : ℚ) :
    sumW (pending.map (fun p => ⟨p.1, p.2.1, y, p.2.2, measure p.1⟩))
      = pendingW measure pending := by
  simp [sumW, pendingW, List.map_map]
  rfl

theorem flush_bounded {y : ℚ} {drawn : List Run} (measure : List Char → ℕ)
    (pending : List (List Char × ℤ × Color))
    (h : ∀ r ∈ drawn, r.y ≤ y) :
    ∀ r ∈ flushRuns measure pending y drawn, r.y ≤ y := by
  intro r hr
  rcases List.mem_append.mp hr with h1 | h1
  · exact h r h1
  · rcases List.mem_map.mp h1 with ⟨p, _, rfl⟩
    exact le_refl y

theorem lt_add_line_height (y : ℚ) : y < y + line_height :=
  lt_add_of_pos_right y (by norm_num [line_height])

/-- Flushing and advancing from any invariant state yields a fresh invariant
state with an empty current line. -/
theorem flushAdvance_inv {measure : List Char → ℕ} {maxW : ℕ} {st : RState}
    (x : ℤ) (hinv : WrapInv measure maxW st) :
    WrapInv measure maxW (flushAdvance measure x st) ∧
      (flushAdvance measure x st).pending = [] ∧
      runsAt (flushAdvance measure x st).y
        (flushAdvance measure x st).drawn = [] := by
  have hb : ∀ r ∈ flushRuns measure st.pending st.y st.drawn, r.y ≤ st.y :=
    flush_bounded measure st.pending hinv.bounded
  have hage : runsAt (st.y + line_height)
      (flushRuns measure st.pending st.y st.drawn) = [] :=
    runsAt_nil_of_bounded hb (lt_add_line_height st.y)
  have hold : LineOK maxW
      (runsAt st.y (flushRuns measure st.pending st.y st.drawn)) := by
    rw [runsAt_flush_self]
    rcases hinv.current with ⟨h1, h2⟩ | ⟨h1, ⟨r, h2, h3⟩, h4⟩ | ⟨h1, h2⟩
    · left
      rw [sumW_append, sumW_flushed]
      omega
    · right
      rw [h1, h2]
      exact ⟨r, by simp, h3⟩
    · left
      rw [h1, h2]
      simp [sumW]
  unfold flushAdvance
  refine ⟨⟨?_, ?_, ?_⟩, rfl, hage⟩
  · intro r hr
    exact le_trans (hb r hr) (le_of_lt (lt_add_line_height st.y))
  · intro yv hyv
    by_cases hys : yv = st.y
    · rw [hys]
      exact hold
    · rw [runsAt_flush_other hys]
      exact hinv.finalized yv hys
  · right; right
    exact ⟨rfl, hage⟩

/-- Drawing a run on the current line preserves the invariant, provided the
run either still fits the accounted width or starts an empty line. -/
theorem draw_run_inv (measure : List Char → ℕ) (maxW : ℕ) (y : ℚ)
    (cx cx' : ℤ) (lw wid : ℕ) (color : Color) (w : List Char)
    (drawn : List Run)
    (hb : ∀ r ∈ drawn, r.y ≤ y)
    (hf : ∀ yv, yv ≠ y → LineOK maxW (runsAt yv drawn))
    (hcur : (sumW (runsAt y drawn) ≤ lw ∧ lw ≤ maxW)
      ∨ ((∃ r, runsAt y drawn = [r] ∧ maxW < r.width) ∧ maxW < lw)
      ∨ runsAt y drawn = [])
    (hcond : lw + wid ≤ maxW ∨ (lw = 0 ∧ runsAt y drawn = [])) :
    WrapInv measure maxW
      ⟨y, cx', lw + wid, [], drawn ++ [⟨w, cx, y, color, wid⟩]⟩ := by
  have hsplit : runsAt y (drawn ++ [⟨w, cx, y, color, wid⟩])
      = runsAt y drawn ++ [⟨w, cx, y, color, wid⟩] := by
    rw [runsAt_append]
    congr 1
    simp [runsAt]
  refine ⟨?_, ?_, ?_⟩
  · intro r hr
    rcases List.mem_append.mp hr with h1 | h1
    · exact hb r h1
    · simp at h1
      rw [h1]
  · intro yv hyv
    have h1 : runsAt yv (drawn ++ [⟨w, cx, y, color, wid⟩])
        = runsAt yv drawn := by
      rw [runsAt_append]
      have h2 : runsAt yv [(⟨w, cx, y, color, wid⟩ : Run)] = [] := by
        simp [runsAt, Ne.symm hyv]
      rw [h2, List.append_nil]
    rw [h1]
    exact hf yv hyv
  · dsimp only
    have hw : sumW [(⟨w, cx, y, color, wid⟩ : Run)] = wid := by
      simp [sumW]
    have hp : pendingW measure ([] : List (List Char × ℤ × Color)) = 0 := by
      simp [pendingW]
    rcases hcond with hfit | ⟨hlw, hempty⟩
    · left
      refine ⟨?_, hfit⟩
      rw [hsplit, sumW_append, hw, hp]
      have hle : sumW (runsAt y drawn) ≤ lw := by
        rcases hcur with ⟨h1, _⟩ | ⟨⟨r, h1, h2⟩, h3⟩ | h1
        · exact h1
        · omega
        · rw [h1]; simp [sumW]
      omega
    · by_cases hwide : wid ≤ maxW
      · left
        constructor
        · rw [hsplit, hempty, List.nil_append, hw, hp]
          omega
        · omega
      · right; left
        refine ⟨rfl, ⟨⟨w, cx, y, color, wid⟩, ?_, by dsimp only; omega⟩,
          by omega⟩
        rw [hsplit, hempty, List.nil_append]

theorem current_of_empty_pending {measure : List Char → ℕ} {maxW : ℕ}
    {st : RState} (hinv : WrapInv measure maxW st)
    (hpend : st.pending = []) :
    (sumW (runsAt st.y st.drawn) ≤ st.lw ∧ st.lw ≤ maxW)
      ∨ ((∃ r, runsAt st.y st.drawn = [r] ∧ maxW < r.width) ∧ maxW < st.lw)
      ∨ runsAt st.y st.drawn = [] := by
  have hp : pendingW measure st.pending = 0 := by
    rw [hpend]; simp [pendingW]
  rcases hinv.current with ⟨h1, h2⟩ | ⟨h1, h2, h3⟩ | ⟨h1, h2⟩
  · left; omega
  · right; left; exact ⟨h2, h3⟩
  · right; right; exact h2

/-- Starting a fresh line (no flush needed: nothing buffered) preserves the
invariant. -/
theorem newline_inv {measure : List Char → ℕ} {maxW : ℕ} {st : RState}
    (x : ℤ) (hinv : WrapInv measure maxW st) (hpend : st.pending = []) :
    WrapInv measure maxW { st with y := st.y + line_height, cx := x, lw := 0 }
      ∧ runsAt (st.y + line_height) st.drawn = [] := by
  have hage : runsAt (st.y + line_height) st.drawn = [] :=
    runsAt_nil_of_bounded hinv.bounded (lt_add_line_height st.y)
  have hold : LineOK maxW (runsAt st.y st.drawn) := by
    rcases current_of_empty_pending hinv hpend with ⟨h1, h2⟩ | ⟨h1, h2⟩ | h1
    · left; omega
    · right; exact h1
    · left; rw [h1]; simp [sumW]
  refine ⟨⟨?_, ?_, ?_⟩, hage⟩
  · intro r hr
    dsimp only
    exact le_trans (hinv.bounded r hr) (le_of_lt (lt_add_line_height st.y))
  · intro yv hyv
    dsimp only at hyv ⊢
    by_cases hys : yv = st.y
    · rw [hys]; exact hold
    · exact hinv.finalized yv hys
  · right; right
    dsimp only
    exact ⟨hpend, hage⟩

/-- One word-loop iteration preserves the invariant. -/
theorem drawWord_inv {measure : List Char → ℕ} {maxW : ℕ} {st : RState}
    (x : ℤ) (color : Color) (w : List Char)
    (hinv : WrapInv measure maxW st) (hpend : st.pending = []) :
    WrapInv measure maxW (drawWord measure x maxW color w st) ∧
      (drawWord measure x maxW color w st).pending = [] := by
  obtain ⟨sy, scx, slw, spend, sdrawn⟩ := st
  dsimp only at hpend
  subst hpend
  by_cases hover : slw + measure w > maxW
  · rcases @newline_inv measure maxW ⟨sy, scx, slw, [], sdrawn⟩ x hinv rfl
      with ⟨h1, hage⟩
    have hres : drawWord measure x maxW color w ⟨sy, scx, slw, [], sdrawn⟩
        = ⟨sy + line_height, x + measure w, 0 + measure w, [],
            sdrawn ++ [⟨w, x, sy + line_height, color, measure w⟩]⟩ := by
      simp only [drawWord]
      rw [if_pos hover]
    rw [hres]
    refine ⟨draw_run_inv measure maxW (sy + line_height) x (x + measure w)
      0 (measure w) color w sdrawn ?_ ?_ ?_ ?_, rfl⟩
    · exact h1.bounded
    · exact h1.finalized
    · exact current_of_empty_pending h1 rfl
    · right
      exact ⟨rfl, hage⟩
  · have hres : drawWord measure x maxW color w ⟨sy, scx, slw, [], sdrawn⟩
        = ⟨sy, scx + measure w, slw + measure w, [],
            sdrawn ++ [⟨w, scx, sy, color, measure w⟩]⟩ := by
      simp only [drawWord]
      rw [if_neg hover]
    rw [hres]
    refine ⟨draw_run_inv measure maxW sy scx (scx + measure w)
      slw (measure w) color w sdrawn ?_ ?_ ?_ ?_, rfl⟩
    · exact hinv.bounded
    · exact hinv.finalized
    · exact current_of_empty_pending hinv rfl
    · left
      omega

/-- The whole word loop preserves the invariant. -/
theorem renderWords_inv (measure : List Char → ℕ) (x : ℤ) (maxW : ℕ)
    (color : Color) :
    ∀ (ws : List (List Char)) (st : RState),
      WrapInv measure maxW st → st.pending = [] →
      WrapInv measure maxW (renderWords measure x maxW color ws st) ∧
        (renderWords measure x maxW color ws st).pending = [] := by
  intro ws
  induction ws with
  | nil => intro st h hp; exact ⟨h, hp⟩
  | cons w ws ih =>
      intro st h hp
      unfold renderWords
      rcases drawWord_inv x color w h hp with ⟨h1, h2⟩
      exact ih _ h1 h2

/-- One part-loop iteration preserves the invariant. -/
theorem partStep_inv {measure : List Char → ℕ} {theme : Palette} {maxW : ℕ}
    (x : ℤ) (pt : List Char) (pk : EntityKind) (st : RState)
    (hinv : WrapInv measure maxW st) :
    WrapInv measure maxW (partStep measure theme x maxW pt pk st) := by
  unfold partStep
  split_ifs with hfit hover
  · refine ⟨hinv.bounded, hinv.finalized, ?_⟩
    left
    dsimp only
    have hpa : pendingW measure
        (st.pending ++ [(pt, st.cx, partColor theme pk)])
        = pendingW measure st.pending + measure pt := by
      simp [pendingW]
    rcases hinv.current with ⟨h1, h2⟩ | ⟨h1, h2, h3⟩ | ⟨h1, h2⟩
    · rw [hpa]
      omega
    · rw [hpa]
      omega
    · have hp0 : pendingW measure st.pending = 0 := by
        rw [h1]; simp [pendingW]
      have hs0 : sumW (runsAt st.y st.drawn) = 0 := by
        rw [h2]; simp [sumW]
      rw [hpa]
      omega
  · rcases flushAdvance_inv x hinv with ⟨h1, h2, h3⟩
    exact (renderWords_inv measure x maxW (partColor theme pk)
      (splitCh ' ' pt) _ h1 h2).1
  · rcases flushAdvance_inv x hinv with ⟨h1, h2, h3⟩
    refine ⟨h1.bounded, h1.finalized, ?_⟩
    left
    dsimp only
    have hs0 : sumW (runsAt (flushAdvance measure x st).y
        (flushAdvance measure x st).drawn) = 0 := by
      rw [h3]; simp [sumW]
    have hp1 : pendingW measure [(pt, x, partColor theme pk)]
        = measure pt := by
      simp [pendingW]
    rw [hp1]
    omega

/-- The whole part loop preserves the invariant. -/
theorem renderParts_inv (measure : List Char → ℕ) (theme : Palette) (x : ℤ)
    (maxW : ℕ) :
    ∀ (ps : List (List Char × EntityKind)) (st : RState),
      WrapInv measure maxW st →
      WrapInv measure maxW (renderParts measure theme x maxW ps st) := by
  intro ps
  induction ps with
  | nil => intro st h; exact h
  | cons p ps ih =>
      intro st h
      rcases p with ⟨pt, pk⟩
      unfold renderParts
      exact ih _ (partStep_inv x pt pk st h)

/-- Rendering one non-blank line preserves the invariant and ends on a fresh
empty line. -/
theorem renderLine_inv {measure : List Char → ℕ} {theme : Palette}
    {maxW : ℕ} (x : ℤ) (line : List Char) (st : RState)
    (hinv : WrapInv measure maxW st) (hpend : st.pending = [])
    (hline : runsAt st.y st.drawn = []) :
    WrapInv measure maxW (renderLine measure theme x maxW line st) ∧
      (renderLine measure theme x maxW line st).pending = [] ∧
      runsAt (renderLine measure theme x maxW line st).y
        (renderLine measure theme x maxW line st).drawn = [] := by
  unfold renderLine
  have h0 : WrapInv measure maxW { st with cx := x, lw := 0, pending := [] } :=
    ⟨hinv.bounded, hinv.finalized, Or.inr (Or.inr ⟨rfl, hline⟩)⟩
  exact flushAdvance_inv x
    (renderParts_inv measure theme x maxW (parse_text_entities line) _ h0)

/-- One line-loop iteration preserves the invariant and the line-boundary
conditions. -/
theorem renderStep_inv {measure : List Char → ℕ} {theme : Palette}
    {maxW : ℕ} (x : ℤ) (line : List Char) (st : RState)
    (hinv : WrapInv measure maxW st) (hpend : st.pending = [])
    (hline : runsAt st.y st.drawn = []) :
    WrapInv measure maxW (renderStep measure theme x maxW st line) ∧
      (renderStep measure theme x maxW st line).pending = [] ∧
      runsAt (renderStep measure theme x maxW st line).y
        (renderStep measure theme x maxW st line).drawn = [] := by
  unfold renderStep
  split_ifs with hb
  · have hpos : st.y < st.y + line_height * (1 / 2) :=
      lt_add_of_pos_right st.y (by norm_num [line_height])
    have hage : runsAt (st.y + line_height * (1 / 2)) st.drawn = [] :=
      runsAt_nil_of_bounded hinv.bounded hpos
    refine ⟨⟨?_, ?_, ?_⟩, hpend, hage⟩
    · intro r hr
      dsimp only
      exact le_trans (hinv.bounded r hr) (le_of_lt hpos)
    · intro yv hyv
      dsimp only at hyv ⊢
      by_cases hys : yv = st.y
      · rw [hys, hline]
        left
        simp [sumW]
      · exact hinv.finalized yv hys
    · right; right
      dsimp only
      exact ⟨hpend, hage⟩
  · exact renderLine_inv x line st hinv hpend hline

/-- The line loop preserves the invariant and boundary conditions. -/
theorem renderFold_inv (measure : List Char → ℕ) (theme : Palette) (x : ℤ)
    (maxW : ℕ) :
    ∀ (lines : List (List Char)) (st : RState),
      WrapInv measure maxW st → st.pending = [] →
      runsAt st.y st.drawn = [] →
      WrapInv measure maxW
          (lines.foldl (renderStep measure theme x maxW) st) ∧
        (lines.foldl (renderStep measure theme x maxW) st).pending = [] ∧
        runsAt (lines.foldl (renderStep measure theme x maxW) st).y
          (lines.foldl (renderStep measure theme x maxW) st).drawn = [] := by
  intro lines
  induction lines with
  | nil => intro st h hp hl; exact ⟨h, hp, hl⟩
  | cons l ls ih =>
      intro st h hp hl
      simp only [List.foldl_cons]
      rcases renderStep_inv x l st h hp hl with ⟨h1, h2, h3⟩
      exact ih _ h1 h2 h3

/-- Claim C2: in the output of `_render_text`, every visual line (the runs
drawn at one height `yv`) has total measured width at most `maxW`; the only
permitted violation is a line consisting of a single run — an over-wide word
— whose own measured width exceeds `maxW`, and that violation is confined to
that one run. -/
theorem render_text_wrap_width (measure : List Char → ℕ) (theme : Palette)
    (text : List Char) (x : ℤ) (y : ℚ) (maxW : ℕ) (yv : ℚ) :
    sumW (runsAt yv (render_text measure theme text x y maxW).drawn) ≤ maxW
      ∨ ∃ r, runsAt yv (render_text measure theme text x y maxW).drawn = [r]
          ∧ maxW < r.width := by
  have hinit : WrapInv measure maxW ⟨y, x, 0, [], []⟩ := by
    refine ⟨?_, ?_, ?_⟩
    · intro r hr
      simp at hr
    · intro yv _
      left
      simp [runsAt, sumW]
    · right; right
      exact ⟨rfl, rfl⟩
  unfold render_text
  rcases renderFold_inv measure theme x maxW
      (splitCh '\n' (normalizeNewlines text)) ⟨y, x, 0, [], []⟩ hinit rfl rfl
    with ⟨h1, h2, h3⟩
  by_cases hy : yv = ((splitCh '\n' (normalizeNewlines text)).foldl
      (renderStep measure theme x maxW) ⟨y, x, 0, [], []⟩).y
  · left
    rw [hy, h3]
    simp [sumW]
  · exact h1.finalized yv hy

/-! ### `generate` (claim C9)

The full render pipeline, abstracted at the level of draw operations: every
pixel-affecting call (`draw.text`, `draw.ellipse`, icon strokes,
`img.paste`) is recorded as a `DrawOp` in execution order.  Font metrics,
media fetches and the two `strptime`-based date formatters (pure functions
of their input, irrelevant to determinism) are parameters; the
`datetime.now()` timestamp string is the explicit `now` parameter, used in
the source only at the `filename = f"tweet_{timestamp}_{self.theme_name}.png"`
line. -/

/-- Embedding of `TweetData` (`wallofx/src/twitter/extractor.py`). -/
structure TweetData where
  url : String
  author_name : List Char
  author_username : List Char
  author_avatar : Option String
  text : List Char
  created_at : List Char
  images : List String
  likes : ℕ
  retweets : ℕ
  replies : ℕ
  views : Option ℕ

/-- Python `str.strip()`: drop leading and trailing whitespace. -/
def pyStrip (l : List Char) : List Char :=
  ((l.dropWhile isPySpace).reverse.dropWhile isPySpace).reverse

/-- Python `str.split()` with no separator: split on whitespace runs,
dropping empty fields (equivalently: split at every whitespace character,
then drop the empty pieces). -/
def splitWs (l : List Char) : List (List Char) :=
  (l.foldr
    (fun c acc =>
      if isPySpace c then [] :: acc
      else
        match acc with
        | [] => [[c]]
        | w :: ws => (c :: w) :: ws)
    []).filter (fun w => !w.isEmpty)

/-- Embedding of `ImageGenerator._get_initials`. -/
def get_initials (name : List Char) : List Char :=
  match splitWs (pyStrip name) with
  | p1 :: p2 :: _ => [p1.headI.toUpper, p2.headI.toUpper]
  | _ =>
      if name.length ≥ 2 then (name.take 2).map Char.toUpper
      else (name.take 1).map Char.toUpper

/-- One pixel-affecting operation of `generate`, in execution order. -/
inductive DrawOp where
  | avatarImage (url : String) (x y size : ℤ)
  | initialsAvatar (initials : List Char) (x y size : ℤ) (fill : Color)
  | textAt (content : List Char) (x : ℤ) (y : ℚ) (color : Color)
  | verifiedBadge (x y size : ℤ)
  | mediaCell (p : Placement)
  | dividerLine (y : ℚ) (color : Color)
  | retweetIcon (x : ℤ) (y : ℚ)
  | likeIcon (x : ℤ) (y : ℚ)
  | xLogo (x : ℤ) (y : ℚ)
deriving DecidableEq, Repr

/-- Embedding of `ImageGenerator.generate`: the draw operations and the output filename.
Drawing depends only on the record, theme, fonts and fetch results; `now`
reaches only the filename. -/
def generate (theme_name : String) (measure : List Char → ℕ)
    (fetch : String → Option (ℕ × ℕ))
    (fmtShort fmtFull : List Char → List Char) (data : TweetData)
    (now : List Char) : List DrawOp × List Char :=
  let theme := resolveTheme theme_name
  let avatarOps : List DrawOp :=
    match data.author_avatar with
    | some aurl =>
        match fetch aurl with
        | some _ => [DrawOp.avatarImage aurl 110 110 110]
        | none => [DrawOp.initialsAvatar (get_initials data.author_name)
            110 110 110 theme.accent]
    | none => [DrawOp.initialsAvatar (get_initials data.author_name)
        110 110 110 theme.accent]
  let text_x : ℤ := 110 + 110 + 20
  let name_width : ℕ := measure data.author_name
  let headerOps : List DrawOp :=
    [DrawOp.textAt data.author_name text_x 120 theme.text,
     DrawOp.verifiedBadge (text_x + name_width + 10) 128 30,
     DrawOp.textAt (data.author_username ++ " · ".toList
        ++ fmtShort data.created_at) text_x 202 theme.secondary_text]
  let body := render_text measure theme data.text 110 285 1780
  let bodyOps := body.drawn.map
    (fun r => DrawOp.textAt r.content r.x r.y r.color)
  let media := mediaSection fetch data.images body.y
  let y1 := media.2 + 45
  let y2 := y1 + 55
  let like_x : ℤ := 110 + 1780 / 2 + 20
  let metricsOps : List DrawOp :=
    [DrawOp.dividerLine y1 theme.divider,
     DrawOp.retweetIcon (110 + 20) y2,
     DrawOp.textAt (format_number data.retweets).toList
        (110 + 20 + 28 + 10) (y2 + 4) theme.secondary_text,
     DrawOp.likeIcon like_x y2,
     DrawOp.textAt (format_number data.likes).toList
        (like_x + 28 + 10) (y2 + 4) theme.secondary_text]
  let y3 := y2 + 75
  let date_final := fmtFull data.created_at
  let footerOps : List DrawOp :=
    [DrawOp.xLogo 110 y3,
     DrawOp.textAt "Posted on X".toList (110 + 26 + 10) (y3 + 4)
        theme.secondary_text,
     DrawOp.textAt date_final (2000 - 110 - (measure date_final : ℤ))
        (y3 + 4) theme.secondary_text]
  (avatarOps ++ headerOps ++ bodyOps ++ media.1.map DrawOp.mediaCell
      ++ metricsOps ++ footerOps,
    "tweet_".toList ++ now ++ "_".toList ++ theme_name.toList
      ++ ".png".toList)

/-- Claim C9: with the record, theme, fonts, date formatting and fetch
results held fixed, two executions of `generate` perform identical draw
operations — identical pixel content — whatever the timestamps; the
timestamp reaches only the filename, which has exactly the
`tweet_<timestamp>_<theme>.png` shape. -/
theorem generate_deterministic (theme_name : String)
    (measure : List Char → ℕ) (fetch : String → Option (ℕ × ℕ))
    (fmtShort fmtFull : List Char → List Char) (data : TweetData)
    (now now' : List Char) :
    (generate theme_name measure fetch fmtShort fmtFull data now).1
        = (generate theme_name measure fetch fmtShort fmtFull data now').1
      ∧ (generate theme_name measure fetch fmtShort fmtFull data now).2
        = "tweet_".toList ++ now ++ "_".toList ++ theme_name.toList
            ++ ".png".toList :=
  ⟨rfl, rfl⟩

end WallOfX
